import Mathlib

/-! HasUniqueTag: a verification development

Shallow embedding of `certification/internal/policy/container/has_unique_tag.go`.

* A Go `string` is a finite sequence of bytes; it is embedded as a list of
  natural numbers, each standing for one byte.
* A Go `error` is embedded as `Option Err`: `none` is `nil`.
* The injected `service.TagLister` may be stateful (it talks to a registry); it is
  embedded as a state-passing function over an arbitrary state type.
* `strings.ToLower`, `strings.Map`, `unicode.ToLower` and the UTF-8 routines of the Go
  standard library are embedded as they are written there. The one thing taken as a
  parameter is the case table `unicode.CaseRanges`, consulted only for runes above
  `unicode.MaxASCII`.
-/

namespace HasUniqueTag

/-! ## Go strings -/

/-- A Go string: a sequence of bytes. -/
abbrev GoString := List Nat

/-- Every element of the sequence is a byte. -/
def GoString.IsBytes (s : GoString) : Prop := ∀ b ∈ s, b < 256

instance (s : GoString) : Decidable (GoString.IsBytes s) := by
  unfold GoString.IsBytes; infer_instance

/-! ## `unicode/utf8` -/

namespace utf8

/-- The constant `utf8.RuneError`, U+FFFD. -/
def RuneError : Nat := 0xFFFD

/-- The constant `utf8.RuneSelf`: bytes below it are single-byte runes. -/
def RuneSelf : Nat := 0x80

/-- The constant `utf8.MaxRune`, U+10FFFF. -/
def MaxRune : Nat := 0x10FFFF

def surrogateMin : Nat := 0xD800
def surrogateMax : Nat := 0xDFFF

def rune1Max : Nat := 0x7F
def rune2Max : Nat := 0x7FF
def rune3Max : Nat := 0xFFFF

def t2 : Nat := 0xC0
def t3 : Nat := 0xE0
def t4 : Nat := 0xF0
def tx : Nat := 0x80

def locb : Nat := 0x80
def hicb : Nat := 0xBF

/-- The entries of the table `first` of `unicode/utf8`: information about the first
byte of an encoding. `xx` marks an invalid first byte, `as` an ASCII byte; otherwise the
low three bits are the size and the high four bits index `acceptRanges`. -/
def xx : Nat := 0xF1
def as : Nat := 0xF0
def s1 : Nat := 0x02
def s2 : Nat := 0x13
def s3 : Nat := 0x03
def s4 : Nat := 0x23
def s5 : Nat := 0x34
def s6 : Nat := 0x04
def s7 : Nat := 0x44

/-- The table `first` of `unicode/utf8`, indexed by the first byte. -/
def first (b : Nat) : Nat :=
  if b < 0x80 then as
  else if b < 0xC2 then xx
  else if b < 0xE0 then s1
  else if b = 0xE0 then s2
  else if b < 0xED then s3
  else if b = 0xED then s4
  else if b < 0xF0 then s3
  else if b = 0xF0 then s5
  else if b < 0xF4 then s6
  else if b = 0xF4 then s7
  else xx

/-- The table `acceptRanges` of `unicode/utf8`: the range `(lo, hi)` allowed for the
second byte of an encoding. -/
def acceptRanges (i : Nat) : Nat × Nat :=
  match i with
  | 0 => (locb, hicb)
  | 1 => (0xA0, hicb)
  | 2 => (locb, 0x9F)
  | 3 => (0x90, hicb)
  | 4 => (locb, 0x8F)
  | _ => (0, 0)

/-- The function `utf8.DecodeRuneInString`: the first rune of `s` and its width in bytes.
An invalid encoding gives `(RuneError, 1)`, the empty string `(RuneError, 0)`.

The bit operations of the source are written arithmetically: `x & 7` is `x % 8`, `x >> 4`
is `x / 16`, the masks `s0 & mask2`, `s0 & mask3`, `s0 & mask4` and `b & maskx` are
`% 32`, `% 16`, `% 8` and `% 64`, a shift `<< k` is a multiplication by `2 ^ k`, and the
`|` of parts that share no bit is their sum. -/
def DecodeRuneInString (s : GoString) : Nat × Nat :=
  match s with
  | [] => (RuneError, 0)
  | b0 :: rest =>
    let x := first b0
    if x ≥ as then
      (if x = as then b0 else RuneError, 1)
    else
      let sz := x % 8
      let accept := acceptRanges (x / 16)
      if s.length < sz then (RuneError, 1)
      else
        match rest with
        | [] => (RuneError, 1)
        | b1 :: rest1 =>
          if b1 < accept.1 ∨ accept.2 < b1 then (RuneError, 1)
          else if sz ≤ 2 then ((b0 % 32) * 64 + b1 % 64, 2)
          else
            match rest1 with
            | [] => (RuneError, 1)
            | b2 :: rest2 =>
              if b2 < locb ∨ hicb < b2 then (RuneError, 1)
              else if sz ≤ 3 then ((b0 % 16) * 4096 + (b1 % 64) * 64 + b2 % 64, 3)
              else
                match rest2 with
                | [] => (RuneError, 1)
                | b3 :: _ =>
                  if b3 < locb ∨ hicb < b3 then (RuneError, 1)
                  else ((b0 % 8) * 262144 + (b1 % 64) * 4096 + (b2 % 64) * 64 + b3 % 64, 4)

/-- The function `utf8.RuneLen`: the number of bytes of the encoding of `r`, or `-1` when
`r` is not a valid value to encode. Runes are natural numbers here, so the case `r < 0`
of the source does not arise. -/
def RuneLen (r : Nat) : Int :=
  if r ≤ rune1Max then 1
  else if r ≤ rune2Max then 2
  else if surrogateMin ≤ r ∧ r ≤ surrogateMax then -1
  else if r ≤ rune3Max then 3
  else if r ≤ MaxRune then 4
  else -1

/-- The function `utf8.AppendRune` applied to an empty buffer, which is what
`Builder.WriteRune` appends: the UTF-8 encoding of `r`, with `RuneError` encoded in place
of a surrogate or of a value above `MaxRune`. A shift `r >> k` is written `r / 2 ^ k`,
`byte(x) & maskx` is `x % 64`, and the `|` with a tag byte is a sum. -/
def AppendRune (r : Nat) : GoString :=
  if r ≤ rune1Max then [r]
  else if r ≤ rune2Max then [t2 + r / 64, tx + r % 64]
  else if r > MaxRune ∨ (surrogateMin ≤ r ∧ r ≤ surrogateMax) then
    [t3 + RuneError / 4096, tx + (RuneError / 64) % 64, tx + RuneError % 64]
  else if r ≤ rune3Max then [t3 + r / 4096, tx + (r / 64) % 64, tx + r % 64]
  else [t4 + r / 262144, tx + (r / 4096) % 64, tx + (r / 64) % 64, tx + r % 64]

end utf8

/-- A string literal of the source: the UTF-8 encoding of its characters. -/
def lit (s : String) : GoString :=
  s.toList.flatMap (fun c => utf8.AppendRune c.toNat)

/-! ## `unicode` -/

namespace unicode

/-- The constant `unicode.MaxASCII`. -/
def MaxASCII : Nat := 0x7F

/-- The function `unicode.ToLower`. Above `MaxASCII` the source returns
`To(LowerCase, r)`, a lookup in the table `unicode.CaseRanges`; that table is the
parameter `caseTable`, giving the lower case of each rune above `MaxASCII`. -/
def ToLower (caseTable : Nat → Nat) (r : Nat) : Nat :=
  if r ≤ MaxASCII then
    if 'A'.toNat ≤ r ∧ r ≤ 'Z'.toNat then r + ('a'.toNat - 'A'.toNat) else r
  else caseTable r

end unicode

/-! ## `strings` -/

namespace strings

/-- The first loop of `strings.Map`, `for i, c := range s`, entered at byte offset `i`
with `rest = s[i:]`. It passes over the runes that `mapping` leaves unchanged and stops at
the first rune to rewrite, returning its offset, the mapped rune and the width of the
rune in `s`; `none` when the loop reaches the end of `s`. Each turn consumes at least
one byte, so `len(s[i:])` turns always suffice. -/
def Map.firstChange (mapping : Nat → Nat) : Nat → Nat → GoString → Option (Nat × Nat × Nat)
  | 0, _, _ => none
  | fuel + 1, i, rest =>
    match rest with
    | [] => none
    | _ :: _ =>
      let c := (utf8.DecodeRuneInString rest).1
      let w := (utf8.DecodeRuneInString rest).2
      let r := mapping c
      if r = c ∧ c ≠ utf8.RuneError then
        Map.firstChange mapping fuel (i + w) (rest.drop w)
      else if c = utf8.RuneError then
        -- `c, width = utf8.DecodeRuneInString(s[i:])`
        if w ≠ 1 ∧ r = c then
          Map.firstChange mapping fuel (i + w) (rest.drop w)
        else some (i, r, w)
      else some (i, r, (utf8.RuneLen c).toNat)

/-- The second loop of `strings.Map`, `for _, c := range s` over what is left of `s`:
every rune is mapped and written, a mapped rune below `RuneSelf` as one byte. -/
def Map.writeRest (mapping : Nat → Nat) : Nat → GoString → GoString
  | 0, _ => []
  | fuel + 1, s =>
    match s with
    | [] => []
    | _ :: _ =>
      let c := (utf8.DecodeRuneInString s).1
      let w := (utf8.DecodeRuneInString s).2
      let r := mapping c
      (if r < utf8.RuneSelf then [r] else utf8.AppendRune r)
        ++ Map.writeRest mapping fuel (s.drop w)

/-- The function `strings.Map`. Runes are natural numbers here, so the guards `r >= 0` of
the source (a negative rune is dropped) always hold. -/
def Map (mapping : Nat → Nat) (s : GoString) : GoString :=
  match Map.firstChange mapping s.length 0 s with
  | none => s  -- fast path for unchanged input
  | some (i, r, width) =>
    let s' := s.drop (i + width)
    s.take i ++ utf8.AppendRune r ++ Map.writeRest mapping s'.length s'

/-- The first loop of `strings.ToLower`: returns `(isASCII, hasUpper)`, stopping at the
first byte that is not below `RuneSelf`. -/
def ToLower.scan : GoString → Bool → Bool × Bool
  | [], hasUpper => (true, hasUpper)
  | c :: cs, hasUpper =>
    if c ≥ utf8.RuneSelf then (false, hasUpper)
    else ToLower.scan cs (hasUpper || (decide ('A'.toNat ≤ c) && decide (c ≤ 'Z'.toNat)))

/-- The function `strings.ToLower`. -/
def ToLower (caseTable : Nat → Nat) (s : GoString) : GoString :=
  let isASCII := (ToLower.scan s false).1
  let hasUpper := (ToLower.scan s false).2
  if isASCII then
    if !hasUpper then s
    else s.map (fun c => if 'A'.toNat ≤ c ∧ c ≤ 'Z'.toNat then c + ('a'.toNat - 'A'.toNat) else c)
  else Map (unicode.ToLower caseTable) s

end strings

/-! ## `fmt` -/

/-- The call `fmt.Sprintf("%s/%s", a, b)` with two string operands. -/
def fmt.Sprintf_s_s (a b : GoString) : GoString := a ++ lit "/" ++ b

/-! ## Run-time panics and short-circuit operators -/

/-- The run-time panic that the indexing `tags[i]` can raise. -/
inductive Panic where
  | indexOutOfRange (i len : Nat)
  deriving DecidableEq, Repr

/-- The index expression `xs[i]`: a run-time panic when `i` is out of range. -/
def index {α : Type} (xs : List α) (i : Nat) : Except Panic α :=
  match xs[i]? with
  | some x => .ok x
  | none => .error (.indexOutOfRange i xs.length)

/-- The operator `a || b`: `b` is evaluated only when `a` is false. -/
def goOr (a b : Except Panic Bool) : Except Panic Bool :=
  match a with
  | .error e => .error e
  | .ok true => .ok true
  | .ok false => b

/-- The operator `a && b`: `b` is evaluated only when `a` is true. -/
def goAnd (a b : Except Panic Bool) : Except Panic Bool :=
  match a with
  | .error e => .error e
  | .ok false => .ok false
  | .ok true => b

/-! ## The check -/

/-- The two fields of `certification.ImageReference` that the check reads. -/
structure ImageReference where
  ImageRegistry : GoString
  ImageRepository : GoString

/-- The interface `service.TagLister`. A call returns a tag list and an error, and may
change the state `σ` of whatever implements it. -/
structure TagLister (σ Ctx Err : Type) where
  ListTags : Ctx → GoString → σ → (List GoString × Option Err) × σ

/-- The struct `HasUniqueTagCheck`. -/
structure HasUniqueTagCheck (σ Ctx Err : Type) where
  TagLister : TagLister σ Ctx Err

/-- The constructor `NewHasUniqueTagCheck`. -/
def NewHasUniqueTagCheck {σ Ctx Err : Type} (tagLister : TagLister σ Ctx Err) :
    HasUniqueTagCheck σ Ctx Err :=
  { TagLister := tagLister }

variable {σ Ctx Err : Type}

/-- The method `getDataToValidate`. -/
def HasUniqueTagCheck.getDataToValidate (p : HasUniqueTagCheck σ Ctx Err) (ctx : Ctx)
    (image : GoString) (st : σ) : (List GoString × Option Err) × σ :=
  p.TagLister.ListTags ctx image st

/-- The method `validate`:
`return len(tags) > 1 || len(tags) == 1 && strings.ToLower(tags[0]) != "latest", nil`. -/
def HasUniqueTagCheck.validate (caseTable : Nat → Nat) (_p : HasUniqueTagCheck σ Ctx Err)
    (tags : List GoString) : Except Panic (Bool × Option Err) :=
  (goOr (.ok (decide (tags.length > 1)))
    (goAnd (.ok (decide (tags.length = 1)))
      ((index tags 0).map (fun t => strings.ToLower caseTable t != lit "latest")))).map
    (fun v => (v, none))

/-- The method `Validate`. -/
def HasUniqueTagCheck.Validate (caseTable : Nat → Nat) (p : HasUniqueTagCheck σ Ctx Err)
    (ctx : Ctx) (imgRef : ImageReference) (st : σ) :
    Except Panic (Bool × Option Err) × σ :=
  let res := p.getDataToValidate ctx
    (fmt.Sprintf_s_s imgRef.ImageRegistry imgRef.ImageRepository) st
  let tags := res.1.1
  let err := res.1.2
  match err with
  | some e => (.ok (false, some e), res.2)
  | none => (p.validate caseTable tags, res.2)

/-- The method `Name`. -/
def HasUniqueTagCheck.Name (_p : HasUniqueTagCheck σ Ctx Err) : GoString :=
  lit "HasUniqueTag"

/-- The four fields of `certification.Metadata` that the check fills. -/
structure Metadata where
  Description : GoString
  Level : GoString
  KnowledgeBaseURL : GoString
  CheckURL : GoString
  deriving DecidableEq

/-- The struct `certification.HelpText`. -/
structure HelpText where
  Message : GoString
  Suggestion : GoString
  deriving DecidableEq

/-- The method `Metadata`. The package constant `certDocumentationURL` is declared in
another file of the package and is taken as a parameter. -/
def HasUniqueTagCheck.Metadata (certDocumentationURL : GoString)
    (_p : HasUniqueTagCheck σ Ctx Err) : Metadata :=
  { Description := lit "Checking if container has a tag other than 'latest', so that the image can be uniquely identified."
    Level := lit "best"
    KnowledgeBaseURL := certDocumentationURL
    CheckURL := certDocumentationURL }

/-- The method `Help`. -/
def HasUniqueTagCheck.Help (_p : HasUniqueTagCheck σ Ctx Err) : HelpText :=
  { Message := lit "Check HasUniqueTag encountered an error. Please review the preflight.log file for more information."
    Suggestion := lit "Add a tag to your image. Consider using Semantic Versioning. https://semver.org/" }

/-! ## Test doubles for the injected tag lister -/

/-- A tag lister that appends every call it receives, context and image coordinate, to a
log, and answers from the log of the earlier calls and the arguments. -/
def recordingLister (respond : List (Ctx × GoString) → Ctx → GoString → List GoString × Option Err) :
    TagLister (List (Ctx × GoString)) Ctx Err :=
  { ListTags := fun ctx image log => (respond log ctx image, log ++ [(ctx, image)]) }

/-- A tag lister that always answers with the same tag list and error. -/
def cannedLister (tags : List GoString) (err : Option Err) :
    TagLister (List (Ctx × GoString)) Ctx Err :=
  recordingLister (fun _ _ _ => (tags, err))

/-- A case table without entries: every rune above `MaxASCII` is its own lower case. -/
def emptyCaseTable : Nat → Nat := fun r => r

/-- A case table with a few entries of `unicode.CaseRanges`: the capital letters of
Latin-1, and U+0130 and the Kelvin sign U+212A, whose lower cases are the ASCII letters
`i` and `k`. -/
def sampleCaseTable : Nat → Nat := fun r =>
  if r = 0x212A then 'k'.toNat
  else if r = 0x130 then 'i'.toNat
  else if 0xC0 ≤ r ∧ r ≤ 0xDE ∧ r ≠ 0xD7 then r + 0x20
  else r

/-- A check over a canned lister, with unit contexts and string error values. -/
def cannedCheck (tags : List GoString) (err : Option String) :
    HasUniqueTagCheck (List (Unit × GoString)) Unit String :=
  NewHasUniqueTagCheck (cannedLister tags err)

/-! ## The loops of `strings.Map` run to the end of the string -/

/-- Decoding a rune of a non-empty string consumes at least one byte. -/
theorem DecodeRuneInString_width_pos (b : Nat) (rest : GoString) :
    1 ≤ (utf8.DecodeRuneInString (b :: rest)).2 := by
  rcases rest with _ | ⟨b1, _ | ⟨b2, _ | ⟨b3, r⟩⟩⟩ <;>
    simp only [utf8.DecodeRuneInString] <;> split_ifs <;> simp

/-- The first loop of `strings.Map` never stops for lack of turns: with `len(rest)` turns
or more it gives the result it gives with `len(rest)` turns. -/
theorem firstChange_fuel (mapping : Nat → Nat) (fuel : Nat) :
    ∀ (i : Nat) (rest : GoString), rest.length ≤ fuel →
      strings.Map.firstChange mapping fuel i rest =
        strings.Map.firstChange mapping rest.length i rest := by
  induction fuel using Nat.strong_induction_on with
  | _ fuel ih =>
    intro i rest hlen
    match rest with
    | [] => cases fuel <;> rfl
    | b :: rest' =>
      obtain ⟨fuel', rfl⟩ : ∃ f, fuel = f + 1 := ⟨fuel - 1, by simp at hlen; omega⟩
      have hw := DecodeRuneInString_width_pos b rest'
      have hr : rest'.length ≤ fuel' := by simp only [List.length_cons] at hlen; omega
      have hdrop : ((b :: rest').drop (utf8.DecodeRuneInString (b :: rest')).2).length
          ≤ rest'.length := by
        simp only [List.length_drop, List.length_cons]; omega
      have e1 := ih fuel' (by omega) (i + (utf8.DecodeRuneInString (b :: rest')).2)
        ((b :: rest').drop (utf8.DecodeRuneInString (b :: rest')).2) (by omega)
      have e2 : strings.Map.firstChange mapping rest'.length
          (i + (utf8.DecodeRuneInString (b :: rest')).2)
          ((b :: rest').drop (utf8.DecodeRuneInString (b :: rest')).2) = _ :=
        if hh : rest'.length = fuel' then by rw [hh]; exact e1
        else ih rest'.length (by omega) (i + (utf8.DecodeRuneInString (b :: rest')).2)
          ((b :: rest').drop (utf8.DecodeRuneInString (b :: rest')).2) hdrop
      simp only [strings.Map.firstChange, List.length_cons]
      rw [e1, e2]

/-- The second loop of `strings.Map` never stops for lack of turns. -/
theorem writeRest_fuel (mapping : Nat → Nat) (fuel : Nat) :
    ∀ (s : GoString), s.length ≤ fuel →
      strings.Map.writeRest mapping fuel s =
        strings.Map.writeRest mapping s.length s := by
  induction fuel using Nat.strong_induction_on with
  | _ fuel ih =>
    intro s hlen
    match s with
    | [] => cases fuel <;> rfl
    | b :: rest' =>
      obtain ⟨fuel', rfl⟩ : ∃ f, fuel = f + 1 := ⟨fuel - 1, by simp at hlen; omega⟩
      have hw := DecodeRuneInString_width_pos b rest'
      have hr : rest'.length ≤ fuel' := by simp only [List.length_cons] at hlen; omega
      have hdrop : ((b :: rest').drop (utf8.DecodeRuneInString (b :: rest')).2).length
          ≤ rest'.length := by
        simp only [List.length_drop, List.length_cons]; omega
      have e1 := ih fuel' (by omega)
        ((b :: rest').drop (utf8.DecodeRuneInString (b :: rest')).2) (by omega)
      have e2 : strings.Map.writeRest mapping rest'.length
          ((b :: rest').drop (utf8.DecodeRuneInString (b :: rest')).2) = _ :=
        if hh : rest'.length = fuel' then by rw [hh]; exact e1
        else ih rest'.length (by omega)
          ((b :: rest').drop (utf8.DecodeRuneInString (b :: rest')).2) hdrop
      simp only [strings.Map.writeRest, List.length_cons]
      rw [e1, e2]

/-! ## The decision rule -/

/-- The rule `validate` never panics and never returns an error; its verdict is decided
by the shape of the tag list. -/
theorem validate_eq (caseTable : Nat → Nat) (p : HasUniqueTagCheck σ Ctx Err)
    (tags : List GoString) :
    p.validate caseTable tags =
      .ok (match tags with
        | [] => false
        | [t] => strings.ToLower caseTable t != lit "latest"
        | _ :: _ :: _ => true, none) := by
  match tags with
  | [] => rfl
  | [t] => rfl
  | _ :: _ :: ts => simp [HasUniqueTagCheck.validate, goOr, Except.map]

/-- After a successful listing, `Validate` returns what `validate` returns on the listed
tags. -/
theorem Validate_of_listed (caseTable : Nat → Nat) (p : HasUniqueTagCheck σ Ctx Err)
    (ctx : Ctx) (imgRef : ImageReference) (st : σ) (tags : List GoString)
    (hlist : (p.TagLister.ListTags ctx
      (imgRef.ImageRegistry ++ lit "/" ++ imgRef.ImageRepository) st).1 = (tags, none)) :
    (p.Validate caseTable ctx imgRef st).1 = p.validate caseTable tags := by
  have h1 : (p.TagLister.ListTags ctx
      (imgRef.ImageRegistry ++ lit "/" ++ imgRef.ImageRepository) st).1.1 = tags := by
    rw [hlist]
  have h2 : (p.TagLister.ListTags ctx
      (imgRef.ImageRegistry ++ lit "/" ++ imgRef.ImageRepository) st).1.2 = none := by
    rw [hlist]
  simp only [HasUniqueTagCheck.Validate, HasUniqueTagCheck.getDataToValidate,
    fmt.Sprintf_s_s, h1, h2]

/-- The verdict of `validate` is true exactly when the list has two tags or more, or holds
a tag that does not lower-case to "latest". -/
theorem validate_true_iff (caseTable : Nat → Nat) (p : HasUniqueTagCheck σ Ctx Err)
    (tags : List GoString) :
    p.validate caseTable tags = .ok (true, none) ↔
      (2 ≤ tags.length ∨ ∃ t ∈ tags, strings.ToLower caseTable t ≠ lit "latest") := by
  rw [validate_eq]
  match tags with
  | [] => simp
  | [t] => simp
  | _ :: _ :: ts => simp

/-- In a list with at most one tag that lower-cases to "latest" and with two tags or
more, some tag does not lower-case to "latest". -/
theorem exists_non_latest (caseTable : Nat → Nat) (tags : List GoString)
    (hlen : 2 ≤ tags.length)
    (hone : tags.countP (fun t => strings.ToLower caseTable t == lit "latest") ≤ 1) :
    ∃ t ∈ tags, strings.ToLower caseTable t ≠ lit "latest" := by
  by_contra hno
  have hall : ∀ t ∈ tags, (fun t => strings.ToLower caseTable t == lit "latest") t = true := by
    intro t ht
    by_contra hne
    exact hno ⟨t, ht, by simpa using hne⟩
  have hcount := List.countP_eq_length.mpr hall
  omega

/-! ## C1 -/

/-- C1, as stated, fails: the list ["latest", "LATEST"] is accepted by `validate` and by
`Validate`, although each of its tags is "latest" when compared case-insensitively. -/
theorem C1_counterexample :
    (cannedCheck [lit "latest", lit "LATEST"] none).validate emptyCaseTable
        [lit "latest", lit "LATEST"] = .ok (true, none)
    ∧ ((cannedCheck [lit "latest", lit "LATEST"] none).Validate emptyCaseTable ()
        ⟨lit "quay.io", lit "org/image"⟩ []).1 = .ok (true, none)
    ∧ ¬ ∃ t ∈ [lit "latest", lit "LATEST"],
        strings.ToLower emptyCaseTable t ≠ lit "latest" := by
  refine ⟨rfl, rfl, by decide⟩

/-- C1, amended: for every tag list `tags` returned successfully by the tag lister,
`Validate` and `validate` return true, with no error, if and only if the list has two
tags or more or contains a tag that is not "latest" compared case-insensitively; so when
at most one tag of the list is "latest" compared case-insensitively, they return true if
and only if the list contains a tag that is not "latest". -/
theorem C1_true_iff_non_latest_tag (caseTable : Nat → Nat) (p : HasUniqueTagCheck σ Ctx Err)
    (ctx : Ctx) (imgRef : ImageReference) (st : σ) (tags : List GoString)
    (hlist : (p.TagLister.ListTags ctx
      (imgRef.ImageRegistry ++ lit "/" ++ imgRef.ImageRepository) st).1 = (tags, none)) :
    ((p.Validate caseTable ctx imgRef st).1 = .ok (true, none) ↔
        (2 ≤ tags.length ∨ ∃ t ∈ tags, strings.ToLower caseTable t ≠ lit "latest"))
    ∧ (p.validate caseTable tags = .ok (true, none) ↔
        (2 ≤ tags.length ∨ ∃ t ∈ tags, strings.ToLower caseTable t ≠ lit "latest"))
    ∧ (tags.countP (fun t => strings.ToLower caseTable t == lit "latest") ≤ 1 →
        ((p.Validate caseTable ctx imgRef st).1 = .ok (true, none) ↔
          ∃ t ∈ tags, strings.ToLower caseTable t ≠ lit "latest")
        ∧ (p.validate caseTable tags = .ok (true, none) ↔
          ∃ t ∈ tags, strings.ToLower caseTable t ≠ lit "latest")) := by
  have hV := Validate_of_listed caseTable p ctx imgRef st tags hlist
  have hv := validate_true_iff caseTable p tags
  have key : tags.countP (fun t => strings.ToLower caseTable t == lit "latest") ≤ 1 →
      ((2 ≤ tags.length ∨ ∃ t ∈ tags, strings.ToLower caseTable t ≠ lit "latest") ↔
        ∃ t ∈ tags, strings.ToLower caseTable t ≠ lit "latest") := by
    intro hone
    constructor
    · rintro (hlen | hex)
      · exact exists_non_latest caseTable tags hlen hone
      · exact hex
    · exact Or.inr
  refine ⟨by rw [hV]; exact hv, hv, fun hone => ⟨?_, ?_⟩⟩
  · rw [hV]; exact hv.trans (key hone)
  · exact hv.trans (key hone)

/-- C1, amended, at the lister that returns ["latest", "v1.0"]: the listing succeeds, one
tag is "latest", and `Validate` returns true as "v1.0" is another tag. -/
theorem C1_true_iff_non_latest_tag_witness :
    ((cannedCheck [lit "latest", lit "v1.0"] none).TagLister.ListTags ()
        (lit "quay.io" ++ lit "/" ++ lit "org/image") []).1
      = ([lit "latest", lit "v1.0"], none)
    ∧ [lit "latest", lit "v1.0"].countP
        (fun t => strings.ToLower emptyCaseTable t == lit "latest") ≤ 1
    ∧ ((cannedCheck [lit "latest", lit "v1.0"] none).Validate emptyCaseTable ()
        ⟨lit "quay.io", lit "org/image"⟩ []).1 = .ok (true, none) :=
  ⟨rfl, by decide,
    ((C1_true_iff_non_latest_tag emptyCaseTable (cannedCheck [lit "latest", lit "v1.0"] none)
      () ⟨lit "quay.io", lit "org/image"⟩ [] [lit "latest", lit "v1.0"] rfl).2.2
        (by decide)).1.mpr ⟨lit "v1.0", by decide, by decide⟩⟩

/-! ## C2 -/

/-- C2: for every tag list of length at least 2, `validate` returns true with no error,
whatever the tags are. -/
theorem C2_two_or_more_tags_pass (caseTable : Nat → Nat) (p : HasUniqueTagCheck σ Ctx Err)
    (tags : List GoString) (hlen : 2 ≤ tags.length) :
    p.validate caseTable tags = .ok (true, none) := by
  rw [validate_eq]
  match tags, hlen with
  | _ :: _ :: _, _ => rfl

/-- C2 at lists of "latest" only, with duplicates, and of empty strings. -/
theorem C2_two_or_more_tags_pass_witness :
    2 ≤ [lit "latest", lit "latest", lit ""].length
    ∧ (cannedCheck [] none).validate emptyCaseTable [lit "latest", lit "latest", lit ""]
        = .ok (true, none) :=
  ⟨by decide, C2_two_or_more_tags_pass emptyCaseTable (cannedCheck [] none)
    [lit "latest", lit "latest", lit ""] (by decide)⟩

/-! ## C3 -/

/-- C3: for every tag list of length exactly 1 with sole element `t`, `validate` returns,
with no error, true if and only if `strings.ToLower t` is not equal to "latest"; the list
["LATEST"] gives false and the list ["v1.0"] gives true. -/
theorem C3_single_tag_verdict (caseTable : Nat → Nat) (p : HasUniqueTagCheck σ Ctx Err) :
    (∀ tags : List GoString, ∀ t : GoString, tags.length = 1 → tags.head? = some t →
      (p.validate caseTable tags = .ok (true, none) ↔
          strings.ToLower caseTable t ≠ lit "latest")
      ∧ (p.validate caseTable tags = .ok (false, none) ↔
          strings.ToLower caseTable t = lit "latest"))
    ∧ p.validate caseTable [lit "LATEST"] = .ok (false, none)
    ∧ p.validate caseTable [lit "v1.0"] = .ok (true, none) := by
  refine ⟨?_, ?_, ?_⟩
  · intro tags t hlen hhead
    match tags, hlen, hhead with
    | [t'], _, hhead =>
      simp only [List.head?_cons, Option.some.injEq] at hhead
      subst hhead
      rw [validate_eq]
      by_cases h : strings.ToLower caseTable t' = lit "latest" <;> simp [h]
  · rw [validate_eq]; rfl
  · rw [validate_eq]; rfl

/-- C3 at the single tag "Latest", which is rejected. -/
theorem C3_single_tag_verdict_witness :
    [lit "Latest"].length = 1 ∧ [lit "Latest"].head? = some (lit "Latest")
    ∧ (cannedCheck [] none).validate emptyCaseTable [lit "Latest"] = .ok (false, none) :=
  ⟨rfl, rfl,
    (((C3_single_tag_verdict emptyCaseTable (cannedCheck [] none)).1
      [lit "Latest"] (lit "Latest") rfl rfl).2).mpr (by decide)⟩

/-! ## C4 -/

/-- C4: for the empty tag list, `validate` returns false with no error; neither of the
two acceptance conditions holds. -/
theorem C4_empty_list_rejected (caseTable : Nat → Nat) (p : HasUniqueTagCheck σ Ctx Err) :
    p.validate caseTable ([] : List GoString) = .ok (false, none)
    ∧ ¬ (([] : List GoString).length > 1)
    ∧ ¬ (([] : List GoString).length = 1) := by
  refine ⟨rfl, by decide, by decide⟩

/-! ## C5 -/

/-- C5: for every image reference and every error `e`, if `ListTags` returns `e`, then
`Validate` returns `(false, e)` with `e` unchanged, whatever tag list the lister returned
alongside the error: two listers that fail with the same error and return different tag
lists give the same result. -/
theorem C5_lister_error_returned (caseTable : Nat → Nat) (p : HasUniqueTagCheck σ Ctx Err)
    (ctx : Ctx) (imgRef : ImageReference) (st : σ) (tags : List GoString) (e : Err)
    (hlist : (p.TagLister.ListTags ctx
      (imgRef.ImageRegistry ++ lit "/" ++ imgRef.ImageRepository) st).1 = (tags, some e)) :
    (p.Validate caseTable ctx imgRef st).1 = .ok (false, some e)
    ∧ ∀ (τ : Type) (q : HasUniqueTagCheck τ Ctx Err) (st' : τ) (tags' : List GoString),
        (q.TagLister.ListTags ctx
          (imgRef.ImageRegistry ++ lit "/" ++ imgRef.ImageRepository) st').1 = (tags', some e) →
        (q.Validate caseTable ctx imgRef st').1 = (p.Validate caseTable ctx imgRef st).1 := by
  have main : ∀ (τ : Type) (q : HasUniqueTagCheck τ Ctx Err) (st' : τ) (tags' : List GoString),
      (q.TagLister.ListTags ctx
        (imgRef.ImageRegistry ++ lit "/" ++ imgRef.ImageRepository) st').1 = (tags', some e) →
      (q.Validate caseTable ctx imgRef st').1 = .ok (false, some e) := by
    intro τ q st' tags' h
    have h2 : (q.TagLister.ListTags ctx
        (imgRef.ImageRegistry ++ lit "/" ++ imgRef.ImageRepository) st').1.2 = some e := by
      rw [h]
    simp only [HasUniqueTagCheck.Validate, HasUniqueTagCheck.getDataToValidate,
      fmt.Sprintf_s_s, h2]
  refine ⟨main σ p st tags hlist, fun τ q st' tags' h => ?_⟩
  rw [main τ q st' tags' h, main σ p st tags hlist]

/-- C5 at a lister that fails with "unauthorized" and still returns the tags
["v1", "v2"], which `validate` would accept: `Validate` returns false and the error. -/
theorem C5_lister_error_returned_witness :
    ((cannedCheck [lit "v1", lit "v2"] (some "unauthorized")).TagLister.ListTags ()
        (lit "quay.io" ++ lit "/" ++ lit "org/image") []).1
      = ([lit "v1", lit "v2"], some "unauthorized")
    ∧ (cannedCheck [lit "v1", lit "v2"] (some "unauthorized")).validate emptyCaseTable
        [lit "v1", lit "v2"] = .ok (true, none)
    ∧ ((cannedCheck [lit "v1", lit "v2"] (some "unauthorized")).Validate emptyCaseTable ()
        ⟨lit "quay.io", lit "org/image"⟩ []).1 = .ok (false, some "unauthorized") :=
  ⟨rfl, rfl,
    (C5_lister_error_returned emptyCaseTable
      (cannedCheck [lit "v1", lit "v2"] (some "unauthorized")) ()
      ⟨lit "quay.io", lit "org/image"⟩ [] [lit "v1", lit "v2"] "unauthorized" rfl).1⟩

/-! ## C6 -/

/-- C6: the error that `Validate` returns is the error that `ListTags` returned, so it is
non-nil if and only if that one is; `validate` returns no error for any tag list; when
the listing succeeds with tags `ts`, `Validate` returns `(validate(ts), nil)`; and a
policy failure, zero tags or exactly one tag that lower-cases to "latest", is returned
as `(false, nil)`. -/
theorem C6_error_only_from_lister (caseTable : Nat → Nat) (p : HasUniqueTagCheck σ Ctx Err)
    (ctx : Ctx) (imgRef : ImageReference) (st : σ) :
    (∃ b : Bool, (p.Validate caseTable ctx imgRef st).1 =
        .ok (b, (p.TagLister.ListTags ctx
          (imgRef.ImageRegistry ++ lit "/" ++ imgRef.ImageRepository) st).1.2))
    ∧ ((∃ b e, (p.Validate caseTable ctx imgRef st).1 = .ok (b, some e)) ↔
        ∃ e, (p.TagLister.ListTags ctx
          (imgRef.ImageRegistry ++ lit "/" ++ imgRef.ImageRepository) st).1.2 = some e)
    ∧ (∀ ts : List GoString, ∃ b : Bool, p.validate caseTable ts = .ok (b, none))
    ∧ (∀ ts : List GoString,
        (p.TagLister.ListTags ctx
          (imgRef.ImageRegistry ++ lit "/" ++ imgRef.ImageRepository) st).1 = (ts, none) →
        (p.Validate caseTable ctx imgRef st).1 = p.validate caseTable ts
        ∧ ((ts = [] ∨ ∃ t, ts = [t] ∧ strings.ToLower caseTable t = lit "latest") →
            (p.Validate caseTable ctx imgRef st).1 = .ok (false, none))) := by
  have hval : ∀ ts : List GoString, ∃ b : Bool, p.validate caseTable ts = .ok (b, none) :=
    fun ts => ⟨_, validate_eq caseTable p ts⟩
  have hfst : ∃ b : Bool, (p.Validate caseTable ctx imgRef st).1 =
      .ok (b, (p.TagLister.ListTags ctx
        (imgRef.ImageRegistry ++ lit "/" ++ imgRef.ImageRepository) st).1.2) := by
    simp only [HasUniqueTagCheck.Validate, HasUniqueTagCheck.getDataToValidate,
      fmt.Sprintf_s_s]
    cases herr : (p.TagLister.ListTags ctx
        (imgRef.ImageRegistry ++ lit "/" ++ imgRef.ImageRepository) st).1.2 with
    | none => exact hval _
    | some e => exact ⟨false, rfl⟩
  refine ⟨hfst, ?_, hval, ?_⟩
  · obtain ⟨b, hb⟩ := hfst
    constructor
    · rintro ⟨b', e, h⟩
      rw [hb] at h
      injection h with h
      exact ⟨e, congrArg Prod.snd h⟩
    · rintro ⟨e, he⟩
      exact ⟨b, e, by rw [hb, he]⟩
  · intro ts hts
    have hV := Validate_of_listed caseTable p ctx imgRef st ts hts
    refine ⟨hV, ?_⟩
    rintro (rfl | ⟨t, rfl, ht⟩)
    · rw [hV, validate_eq]
    · rw [hV, validate_eq]; simp [ht]

/-- C6 at a lister that succeeds with the single tag "latest": the policy failure is
returned as `(false, nil)`. -/
theorem C6_error_only_from_lister_witness :
    ((cannedCheck [lit "latest"] none).TagLister.ListTags ()
        (lit "quay.io" ++ lit "/" ++ lit "org/image") []).1 = ([lit "latest"], none)
    ∧ strings.ToLower emptyCaseTable (lit "latest") = lit "latest"
    ∧ ((cannedCheck [lit "latest"] none).Validate emptyCaseTable ()
        ⟨lit "quay.io", lit "org/image"⟩ []).1 = .ok (false, none) :=
  ⟨rfl, by decide,
    ((C6_error_only_from_lister emptyCaseTable (cannedCheck [lit "latest"] none) ()
      ⟨lit "quay.io", lit "org/image"⟩ []).2.2.2 [lit "latest"] rfl).2
        (Or.inr ⟨lit "latest", rfl, by decide⟩)⟩

/-! ## C7 -/

/-- The bytes of the literal "latest". -/
theorem lit_latest : lit "latest" = [108, 97, 116, 101, 115, 116] := by decide

/-- C7: for every string `t` obtained from "latest" by upper-casing any subset of its six
letters, that is every `t` that agrees with "latest" position by position up to replacing
a letter by its upper-case letter, `validate([t])` returns false, with no error. -/
theorem C7_latest_any_case_rejected (caseTable : Nat → Nat)
    (p : HasUniqueTagCheck σ Ctx Err) (t : GoString)
    (hcase : List.Forall₂ (fun c l => c = l ∨ c = l - ('a'.toNat - 'A'.toNat)) t
      (lit "latest")) :
    p.validate caseTable [t] = .ok (false, none) := by
  rw [validate_eq, lit_latest]
  rw [lit_latest] at hcase
  simp only [List.forall₂_cons_right_iff, List.forall₂_nil_right_iff] at hcase
  obtain ⟨c0, r0, h0, ⟨c1, r1, h1, ⟨c2, r2, h2, ⟨c3, r3, h3, ⟨c4, r4, h4,
    ⟨c5, r5, h5, rfl, rfl⟩, rfl⟩, rfl⟩, rfl⟩, rfl⟩, rfl⟩ := hcase
  rcases h0 with rfl | rfl <;> rcases h1 with rfl | rfl <;> rcases h2 with rfl | rfl <;>
    rcases h3 with rfl | rfl <;> rcases h4 with rfl | rfl <;> rcases h5 with rfl | rfl <;>
    rfl

/-- C7 at the spelling "LaTeSt". -/
theorem C7_latest_any_case_rejected_witness :
    List.Forall₂ (fun c l => c = l ∨ c = l - ('a'.toNat - 'A'.toNat)) (lit "LaTeSt")
      (lit "latest")
    ∧ (cannedCheck [] none).validate emptyCaseTable [lit "LaTeSt"] = .ok (false, none) :=
  ⟨by decide, C7_latest_any_case_rejected emptyCaseTable (cannedCheck [] none)
    (lit "LaTeSt") (by decide)⟩

/-! ## C8 -/

/-- C8: for every image reference with registry `r` and repository `p`, `Validate` leaves
the lister in the state that one call of `ListTags`, with the caller's context and the
coordinate `r ++ "/" ++ p` (the byte 0x2F is the slash), leaves it in; and with a lister
that records its calls and answers in any way, also depending on the calls made before,
the record after `Validate` holds exactly one new call, with that context and that
coordinate, also when the answer is an error. -/
theorem C8_one_ListTags_call (caseTable : Nat → Nat) (ctx : Ctx) (r p : GoString) :
    (∀ (chk : HasUniqueTagCheck σ Ctx Err) (st : σ),
      (chk.Validate caseTable ctx ⟨r, p⟩ st).2 =
        (chk.TagLister.ListTags ctx (r ++ [0x2F] ++ p) st).2)
    ∧ (∀ (respond : List (Ctx × GoString) → Ctx → GoString → List GoString × Option Err)
        (log : List (Ctx × GoString)),
      ((NewHasUniqueTagCheck (recordingLister respond)).Validate caseTable ctx ⟨r, p⟩ log).2
        = log ++ [(ctx, r ++ [0x2F] ++ p)]) := by
  have hslash : lit "/" = [0x2F] := by decide
  have main : ∀ (τ : Type) (chk : HasUniqueTagCheck τ Ctx Err) (st : τ),
      (chk.Validate caseTable ctx ⟨r, p⟩ st).2 =
        (chk.TagLister.ListTags ctx (r ++ [0x2F] ++ p) st).2 := by
    intro τ chk st
    simp only [HasUniqueTagCheck.Validate, HasUniqueTagCheck.getDataToValidate,
      fmt.Sprintf_s_s, hslash]
    cases (chk.TagLister.ListTags ctx (r ++ [0x2F] ++ p) st).1.2 <;> rfl
  refine ⟨main σ, fun respond log => ?_⟩
  rw [main]
  rfl

/-! ## C9 -/

/-- C9: `Name()` returns the constant string "HasUniqueTag" for every `HasUniqueTagCheck`
value, whatever tag lister was injected. -/
theorem C9_Name_constant (chk : HasUniqueTagCheck σ Ctx Err) :
    chk.Name = lit "HasUniqueTag"
    ∧ ∀ (τ Ctx' Err' : Type) (lister : TagLister τ Ctx' Err'),
        (NewHasUniqueTagCheck lister).Name = chk.Name :=
  ⟨rfl, fun _ _ _ _ => rfl⟩

/-! ## C10 -/

/-- C10: `Metadata()` and `Help()` return the same fixed records for every
`HasUniqueTagCheck` value, whatever tag lister was injected: `Metadata` has Level "best",
the stated Description, and KnowledgeBaseURL and CheckURL both equal to
`certDocumentationURL`; `Help` has the fixed Message, which names the check by the string
that `Name()` returns, and the fixed Suggestion to add a tag. -/
theorem C10_Metadata_Help_constant (certDocumentationURL : GoString)
    (chk : HasUniqueTagCheck σ Ctx Err) :
    (chk.Metadata certDocumentationURL).Level = lit "best"
    ∧ (chk.Metadata certDocumentationURL).Description =
        lit "Checking if container has a tag other than 'latest', so that the image can be uniquely identified."
    ∧ (chk.Metadata certDocumentationURL).KnowledgeBaseURL = certDocumentationURL
    ∧ (chk.Metadata certDocumentationURL).CheckURL = certDocumentationURL
    ∧ (chk.Metadata certDocumentationURL).KnowledgeBaseURL =
        (chk.Metadata certDocumentationURL).CheckURL
    ∧ chk.Help.Message =
        lit "Check " ++ chk.Name
          ++ lit " encountered an error. Please review the preflight.log file for more information."
    ∧ chk.Help.Suggestion =
        lit "Add a tag to your image. Consider using Semantic Versioning. https://semver.org/"
    ∧ ∀ (τ Ctx' Err' : Type) (lister : TagLister τ Ctx' Err'),
        (NewHasUniqueTagCheck lister).Metadata certDocumentationURL =
          chk.Metadata certDocumentationURL
        ∧ (NewHasUniqueTagCheck lister).Help = chk.Help := by
  refine ⟨rfl, rfl, rfl, rfl, rfl, ?_, rfl, fun _ _ _ _ => ⟨rfl, rfl⟩⟩
  show lit _ = lit _ ++ lit _ ++ lit _
  decide

/-! ## C11 -/

/-- C11: the verdict does not rely on tag ordering: for every tag list `ts` and every
permutation `ts'` of `ts`, `validate(ts) = validate(ts')`. -/
theorem C11_validate_perm (caseTable : Nat → Nat) (p : HasUniqueTagCheck σ Ctx Err)
    (ts ts' : List GoString) (hperm : ts.Perm ts') :
    p.validate caseTable ts = p.validate caseTable ts' := by
  rw [validate_eq, validate_eq]
  have hlen := hperm.length_eq
  match ts, ts', hperm, hlen with
  | [], [], _, _ => rfl
  | [t], [t'], hperm, _ =>
    have ht : t = t' := by simpa using hperm
    rw [ht]
  | _ :: _ :: _, _ :: _ :: _, _, _ => rfl

/-- C11 at the lists ["latest", "v1.0"] and ["v1.0", "latest"]. -/
theorem C11_validate_perm_witness :
    [lit "latest", lit "v1.0"].Perm [lit "v1.0", lit "latest"]
    ∧ (cannedCheck [] none).validate emptyCaseTable [lit "latest", lit "v1.0"] =
        (cannedCheck [] none).validate emptyCaseTable [lit "v1.0", lit "latest"] :=
  ⟨List.Perm.swap _ _ _, C11_validate_perm emptyCaseTable (cannedCheck [] none)
    [lit "latest", lit "v1.0"] [lit "v1.0", lit "latest"] (List.Perm.swap _ _ _)⟩

/-! ## C12 -/

/-- C12: `validate` is total: for every tag list, the empty one included, it returns a
verdict and no run-time panic. The access `tags[0]` is in range whenever `len(tags) == 1`,
and it is consulted only then: when `len(tags) > 1` the disjunction is true whatever its
right operand would do, and when `len(tags) != 1` the conjunction is false whatever its
right operand would do, also where that operand, evaluated alone, is the out-of-range
panic of `tags[0]` on the empty list. -/
theorem C12_validate_total (caseTable : Nat → Nat) (p : HasUniqueTagCheck σ Ctx Err)
    (tags : List GoString) :
    (∃ b : Bool, p.validate caseTable tags = .ok (b, none))
    ∧ (∀ e : Panic, p.validate caseTable tags ≠ .error e)
    ∧ (tags.length = 1 → ∃ t, index tags 0 = .ok t)
    ∧ (tags.length > 1 → ∀ rhs : Except Panic Bool,
        goOr (.ok (decide (tags.length > 1))) rhs = .ok true)
    ∧ (tags.length ≠ 1 → ∀ rhs : Except Panic Bool,
        goAnd (.ok (decide (tags.length = 1))) rhs = .ok false)
    ∧ index ([] : List GoString) 0 = .error (.indexOutOfRange 0 0) := by
  refine ⟨⟨_, validate_eq caseTable p tags⟩, ?_, ?_, ?_, ?_, rfl⟩
  · intro e h
    rw [validate_eq] at h
    cases h
  · intro hlen
    match tags, hlen with
    | [t], _ => exact ⟨t, rfl⟩
  · intro hlen rhs
    simp [goOr, hlen]
  · intro hlen rhs
    simp [goAnd, hlen]

/-- C12 at the empty list and at a one-element list: a verdict, no panic, and the access
in range. -/
theorem C12_validate_total_witness :
    ([lit "v1.0"].length = 1 ∧ ∃ t, index [lit "v1.0"] 0 = .ok t)
    ∧ (([] : List GoString).length ≠ 1
      ∧ goAnd (.ok (decide (([] : List GoString).length = 1)))
          ((index ([] : List GoString) 0).map
            (fun t => strings.ToLower emptyCaseTable t != lit "latest")) = .ok false) :=
  ⟨⟨rfl, (C12_validate_total emptyCaseTable (cannedCheck [] none) [lit "v1.0"]).2.2.1 rfl⟩,
    ⟨by decide, (C12_validate_total emptyCaseTable (cannedCheck [] none) []).2.2.2.2.1
      (by decide) _⟩⟩

/-! ## `strings.ToLower` and the spellings of "latest" -/

/-- The first loop of `strings.ToLower` reports `isASCII` exactly when every byte is below
`RuneSelf`. -/
theorem scan_fst (s : GoString) : ∀ h : Bool,
    (strings.ToLower.scan s h).1 = true ↔ ∀ b ∈ s, b < 0x80 := by
  induction s with
  | nil => intro h; simp [strings.ToLower.scan]
  | cons c cs ih =>
    intro h
    by_cases hc : c ≥ utf8.RuneSelf
    · have hc' : ¬ c < 128 := by simpa [utf8.RuneSelf] using hc
      simp [strings.ToLower.scan, hc, hc']
    · have hc' : c < 128 := by simpa [utf8.RuneSelf] using hc
      simp [strings.ToLower.scan, hc, hc', ih]

/-- On an ASCII string the first loop of `strings.ToLower` reports `hasUpper` exactly when
some byte is an upper-case letter. -/
theorem scan_snd (s : GoString) : ∀ h : Bool, (∀ b ∈ s, b < 0x80) →
    (strings.ToLower.scan s h).2 =
      (h || s.any (fun c => decide ('A'.toNat ≤ c) && decide (c ≤ 'Z'.toNat))) := by
  induction s with
  | nil => intro h _; simp [strings.ToLower.scan]
  | cons c cs ih =>
    intro h hs
    have hc : ¬ c ≥ utf8.RuneSelf := by
      have := hs c (List.mem_cons_self _ _)
      simp [utf8.RuneSelf]; omega
    have hcs : ∀ b ∈ cs, b < 0x80 := fun b hb => hs b (List.mem_cons_of_mem _ hb)
    simp only [strings.ToLower.scan, hc, if_false, ih _ hcs, List.any_cons, Bool.or_assoc]

/-- On an ASCII string `strings.ToLower` lower-cases byte by byte. -/
theorem ToLower_ascii (caseTable : Nat → Nat) (s : GoString) (hs : ∀ b ∈ s, b < 0x80) :
    strings.ToLower caseTable s =
      s.map (fun c => if 'A'.toNat ≤ c ∧ c ≤ 'Z'.toNat then c + ('a'.toNat - 'A'.toNat) else c) := by
  have h1 := (scan_fst s false).mpr hs
  have h2 := scan_snd s false hs
  simp only [strings.ToLower, h1, if_true]
  by_cases hu : (strings.ToLower.scan s false).2 = true
  · simp [hu]
  · have hu' : (strings.ToLower.scan s false).2 = false := by simpa using hu
    simp only [hu', Bool.not_false, if_true]
    rw [hu'] at h2
    have hall : ∀ c ∈ s, ¬ ('A'.toNat ≤ c ∧ c ≤ 'Z'.toNat) := by
      intro c hc hcc
      have hany : s.any (fun c => decide ('A'.toNat ≤ c) && decide (c ≤ 'Z'.toNat)) = true := by
        rw [List.any_eq_true]
        exact ⟨c, hc, by rw [decide_eq_true hcc.1, decide_eq_true hcc.2]; rfl⟩
      rw [hany] at h2
      cases h2
    symm
    calc s.map _ = s.map id := List.map_congr_left (fun c hc => by rw [if_neg (hall c hc)]; rfl)
      _ = s := List.map_id s

/-- On a string with a byte that is not below `RuneSelf`, `strings.ToLower` is
`strings.Map(unicode.ToLower, s)`. -/
theorem ToLower_non_ascii (caseTable : Nat → Nat) (s : GoString) (hs : ¬ ∀ b ∈ s, b < 0x80) :
    strings.ToLower caseTable s = strings.Map (unicode.ToLower caseTable) s := by
  have h1 : (strings.ToLower.scan s false).1 = false := by
    have := (scan_fst s false).not.mpr hs
    simpa using this
  simp [strings.ToLower, h1]



/-- The entry of the table `first` for a byte that is not below `RuneSelf`. -/
theorem first_cases (b0 : Nat) (hb : 0x80 ≤ b0) :
    utf8.first b0 = 0xF1 ∨ (utf8.first b0 = 0x02 ∧ 0xC2 ≤ b0 ∧ b0 < 0xE0)
      ∨ (utf8.first b0 = 0x13 ∧ b0 = 0xE0)
      ∨ (utf8.first b0 = 0x03 ∧ 0xE1 ≤ b0 ∧ b0 < 0xF0)
      ∨ (utf8.first b0 = 0x23 ∧ b0 = 0xED)
      ∨ (utf8.first b0 = 0x34 ∧ b0 = 0xF0)
      ∨ (utf8.first b0 = 0x04 ∧ 0xF1 ≤ b0 ∧ b0 < 0xF4)
      ∨ (utf8.first b0 = 0x44 ∧ b0 = 0xF4) := by
  simp only [utf8.first, utf8.xx, utf8.as, utf8.s1, utf8.s2, utf8.s3, utf8.s4, utf8.s5,
      utf8.s6, utf8.s7]
  split_ifs <;> simp <;> omega

/-- A string that starts with a byte that is not below `RuneSelf` decodes to a rune above
`MaxASCII`: `RuneError` or a rune encoded on two bytes or more. -/
theorem DecodeRuneInString_non_ascii (b0 : Nat) (rest : GoString) (hb : 0x80 ≤ b0) :
    0x7F < (utf8.DecodeRuneInString (b0 :: rest)).1 := by
  rcases first_cases b0 hb with h | ⟨h, h1, h2⟩ | ⟨h, h1⟩ | ⟨h, h1, h2⟩ | ⟨h, h1⟩ | ⟨h, h1⟩
      | ⟨h, h1, h2⟩ | ⟨h, h1⟩ <;>
    rcases rest with _ | ⟨b1, _ | ⟨b2, _ | ⟨b3, r⟩⟩⟩ <;>
    simp only [utf8.DecodeRuneInString, h, utf8.as, utf8.acceptRanges, utf8.RuneError,
      utf8.locb, utf8.hicb] <;>
    norm_num <;>
    split_ifs <;>
    omega

/-- A byte below `RuneSelf` decodes to itself, with width 1. -/
theorem DecodeRuneInString_ascii (b0 : Nat) (rest : GoString) (hb : b0 < 0x80) :
    utf8.DecodeRuneInString (b0 :: rest) = (b0, 1) := by
  simp [utf8.DecodeRuneInString, utf8.first, hb, utf8.as]

/-- Decoding a rune consumes no more bytes than the string has. -/
theorem DecodeRuneInString_width_le (s : GoString) :
    (utf8.DecodeRuneInString s).2 ≤ s.length := by
  rcases s with _ | ⟨b0, _ | ⟨b1, _ | ⟨b2, _ | ⟨b3, r⟩⟩⟩⟩
  · simp [utf8.DecodeRuneInString]
  all_goals simp only [utf8.DecodeRuneInString]; split_ifs <;> simp

/-- A byte that is not below `RuneSelf` does not occur in "latest". -/
theorem not_mem_latest_of_ge (b : Nat) (hb : 0x80 ≤ b) : b ∉ lit "latest" := by
  rw [lit_latest]
  simp only [List.mem_cons, List.mem_singleton, List.not_mem_nil, or_false, not_or]
  omega

/-- The encoding of a rune that is not a letter of "latest" holds a byte that does not
occur in "latest". -/
theorem AppendRune_bad (r : Nat) (hr : r ∉ lit "latest") :
    ∃ b ∈ utf8.AppendRune r, b ∉ lit "latest" := by
  unfold utf8.AppendRune
  split_ifs
  · exact ⟨r, List.mem_singleton_self _, hr⟩
  all_goals
    refine ⟨_, List.mem_cons_self _ _, not_mem_latest_of_ge _ ?_⟩
    simp only [utf8.t2, utf8.t3, utf8.t4]
    omega

/-- Above `MaxASCII`, `unicode.ToLower` is the case table. -/
theorem unicode_ToLower_non_ascii (caseTable : Nat → Nat) (c : Nat) (hc : 0x7F < c) :
    unicode.ToLower caseTable c = caseTable c := by
  have h : ¬ c ≤ unicode.MaxASCII := by simp only [unicode.MaxASCII]; omega
  simp only [unicode.ToLower, h, if_false]

/-- The bytes that one turn of the second loop of `strings.Map` writes for a rune above
`MaxASCII` hold a byte that does not occur in "latest". -/
theorem writeRest_chunk_bad (caseTable : Nat → Nat)
    (hT : ∀ r, 0x7F < r → caseTable r ∉ lit "latest") (c : Nat) (hc : 0x7F < c) :
    ∃ b ∈ (if unicode.ToLower caseTable c < utf8.RuneSelf then [unicode.ToLower caseTable c]
        else utf8.AppendRune (unicode.ToLower caseTable c)), b ∉ lit "latest" := by
  rw [unicode_ToLower_non_ascii caseTable c hc]
  split_ifs
  · exact ⟨_, List.mem_singleton_self _, hT c hc⟩
  · exact AppendRune_bad _ (hT c hc)

/-- The second loop of `strings.Map(unicode.ToLower, s)`, run on a string with a byte
above 0x7F, writes a byte that does not occur in "latest". -/
theorem writeRest_bad (caseTable : Nat → Nat)
    (hT : ∀ r, 0x7F < r → caseTable r ∉ lit "latest") (fuel : Nat) :
    ∀ s : GoString, s.length ≤ fuel → (∃ b ∈ s, 0x80 ≤ b) →
      ∃ b ∈ strings.Map.writeRest (unicode.ToLower caseTable) fuel s, b ∉ lit "latest" := by
  induction fuel with
  | zero =>
    intro s hlen ⟨b, hb, _⟩
    have : s = [] := List.length_eq_zero.mp (Nat.le_zero.mp hlen)
    rw [this] at hb
    cases hb
  | succ fuel ih =>
    intro s hlen hex
    match s, hlen, hex with
    | [], _, ⟨b, hb, _⟩ => cases hb
    | b0 :: rest, hlen, ⟨b, hb, hb128⟩ =>
      simp only [strings.Map.writeRest]
      by_cases h0 : b0 < 0x80
      · rw [DecodeRuneInString_ascii b0 rest h0]
        have hbrest : b ∈ rest := by
          rcases List.mem_cons.mp hb with rfl | h
          · omega
          · exact h
        obtain ⟨b', hb', hbad⟩ := ih rest (by simpa using hlen) ⟨b, hbrest, hb128⟩
        exact ⟨b', List.mem_append_right _ (by simpa using hb'), hbad⟩
      · have hc := DecodeRuneInString_non_ascii b0 rest (by omega)
        obtain ⟨b', hb', hbad⟩ := writeRest_chunk_bad caseTable hT _ hc
        exact ⟨b', List.mem_append_left _ hb', hbad⟩

/-- The first loop of `strings.Map` stops at or after the offset it was entered at. -/
theorem firstChange_offset_le (mapping : Nat → Nat) (fuel : Nat) :
    ∀ (i : Nat) (rest : GoString) (j r w : Nat),
      strings.Map.firstChange mapping fuel i rest = some (j, r, w) → i ≤ j := by
  induction fuel with
  | zero => intro i rest j r w h; simp [strings.Map.firstChange] at h
  | succ fuel ih =>
    intro i rest j r w h
    match rest with
    | [] => simp [strings.Map.firstChange] at h
    | b0 :: rest' =>
      simp only [strings.Map.firstChange] at h
      split_ifs at h
      · have := ih _ _ _ _ _ h; omega
      · have := ih _ _ _ _ _ h; omega
      · simp only [Option.some.injEq, Prod.mk.injEq] at h; omega
      · simp only [Option.some.injEq, Prod.mk.injEq] at h; omega

/-- When a byte that does not occur in "latest" lies before the offset at which the first
loop of `strings.Map` is entered, the string that `Map` assembles from the loop's result
holds that byte. -/
theorem Map_bad_of_pre (mapping : Nat → Nat) (fuel : Nat) (pre rest : GoString)
    (hpre : ∃ b ∈ pre, b ∉ lit "latest") (i r w : Nat)
    (h : strings.Map.firstChange mapping fuel pre.length rest = some (i, r, w)) :
    ∃ b ∈ (pre ++ rest).take i ++ utf8.AppendRune r
        ++ strings.Map.writeRest mapping ((pre ++ rest).drop (i + w)).length
            ((pre ++ rest).drop (i + w)),
      b ∉ lit "latest" := by
  obtain ⟨b, hb, hbad⟩ := hpre
  have hle := firstChange_offset_le mapping fuel _ _ _ _ _ h
  refine ⟨b, ?_, hbad⟩
  apply List.mem_append_left
  apply List.mem_append_left
  rw [List.take_append_eq_append_take, List.take_of_length_le hle]
  exact List.mem_append_left _ hb

/-- When a byte above 0x7F lies at or after the offset at which the first loop of
`strings.Map(unicode.ToLower, s)` is entered, the string that `Map` assembles from the
loop's result holds a byte that does not occur in "latest". -/
theorem Map_bad_of_rest (caseTable : Nat → Nat)
    (hT : ∀ r, 0x7F < r → caseTable r ∉ lit "latest") (fuel : Nat) :
    ∀ (pre rest : GoString), rest.length ≤ fuel → (∃ b ∈ rest, 0x80 ≤ b) →
      ∀ (i r w : Nat),
        strings.Map.firstChange (unicode.ToLower caseTable) fuel pre.length rest
          = some (i, r, w) →
        ∃ b ∈ (pre ++ rest).take i ++ utf8.AppendRune r
            ++ strings.Map.writeRest (unicode.ToLower caseTable)
                ((pre ++ rest).drop (i + w)).length ((pre ++ rest).drop (i + w)),
          b ∉ lit "latest" := by
  induction fuel with
  | zero => intro pre rest _ _ i r w h; simp [strings.Map.firstChange] at h
  | succ fuel ih =>
    intro pre rest hlen hex i r w h
    match rest, hlen, hex, h with
    | [], _, ⟨b, hb, _⟩, _ => cases hb
    | b0 :: rest', hlen, ⟨b, hb, hb128⟩, h =>
      have hlen' : rest'.length ≤ fuel := by simpa using hlen
      simp only [strings.Map.firstChange] at h
      by_cases h0 : b0 < 0x80
      · -- an ASCII byte: the byte above 0x7F lies further on
        have hbrest : b ∈ rest' := by
          rcases List.mem_cons.mp hb with rfl | h'
          · omega
          · exact h'
        rw [DecodeRuneInString_ascii b0 rest' h0] at h
        have hne : b0 ≠ utf8.RuneError := by simp only [utf8.RuneError]; omega
        simp only [List.drop_succ_cons, List.drop_zero, hne, ne_eq, not_false_eq_true,
          and_true, if_false] at h
        split_ifs at h with hsame
        · have := ih (pre ++ [b0]) rest' hlen' ⟨b, hbrest, hb128⟩ i r w
            (by simpa using h)
          simpa using this
        · simp only [Option.some.injEq, Prod.mk.injEq] at h
          obtain ⟨rfl, rfl, rfl⟩ := h
          have hlen1 : (utf8.RuneLen b0).toNat = 1 := by
            have : b0 ≤ utf8.rune1Max := by simp only [utf8.rune1Max]; omega
            simp [utf8.RuneLen, this]
          obtain ⟨b', hb', hbad⟩ := writeRest_bad caseTable hT rest'.length rest' le_rfl
            ⟨b, hbrest, hb128⟩
          refine ⟨b', List.mem_append_right _ ?_, hbad⟩
          rw [hlen1]
          simpa using hb'
      · -- a byte above 0x7F: the rune decoded here is above `MaxASCII`
        have hc := DecodeRuneInString_non_ascii b0 rest' (by omega)
        have hw := DecodeRuneInString_width_pos b0 rest'
        have hwle := DecodeRuneInString_width_le (b0 :: rest')
        have hcont : ∀ i r w,
            strings.Map.firstChange (unicode.ToLower caseTable) fuel
              (pre.length + (utf8.DecodeRuneInString (b0 :: rest')).2)
              ((b0 :: rest').drop (utf8.DecodeRuneInString (b0 :: rest')).2) = some (i, r, w) →
            ∃ b ∈ (pre ++ b0 :: rest').take i ++ utf8.AppendRune r
                ++ strings.Map.writeRest (unicode.ToLower caseTable)
                    ((pre ++ b0 :: rest').drop (i + w)).length
                    ((pre ++ b0 :: rest').drop (i + w)),
              b ∉ lit "latest" := by
          intro i r w h
          have hpre : ∃ b ∈ pre ++ (b0 :: rest').take (utf8.DecodeRuneInString (b0 :: rest')).2,
              b ∉ lit "latest" := by
            refine ⟨b0, List.mem_append_right _ ?_, not_mem_latest_of_ge b0 (by omega)⟩
            obtain ⟨k, hk⟩ : ∃ k, (utf8.DecodeRuneInString (b0 :: rest')).2 = k + 1 :=
              ⟨_, (Nat.sub_add_cancel hw).symm⟩
            rw [hk, List.take_succ_cons]
            exact List.mem_cons_self _ _
          have := Map_bad_of_pre (unicode.ToLower caseTable) fuel
            (pre ++ (b0 :: rest').take (utf8.DecodeRuneInString (b0 :: rest')).2)
            ((b0 :: rest').drop (utf8.DecodeRuneInString (b0 :: rest')).2) hpre i r w
            (by
              rw [List.length_append, List.length_take, Nat.min_eq_left hwle]
              exact h)
          have heq : pre ++ (b0 :: rest').take (utf8.DecodeRuneInString (b0 :: rest')).2
              ++ (b0 :: rest').drop (utf8.DecodeRuneInString (b0 :: rest')).2
              = pre ++ b0 :: rest' := by
            rw [List.append_assoc, List.take_append_drop]
          rw [heq] at this
          exact this
        have hstop : ∀ w, ∃ b ∈ (pre ++ b0 :: rest').take pre.length
              ++ utf8.AppendRune
                  (unicode.ToLower caseTable (utf8.DecodeRuneInString (b0 :: rest')).1)
              ++ strings.Map.writeRest (unicode.ToLower caseTable)
                  ((pre ++ b0 :: rest').drop (pre.length + w)).length
                  ((pre ++ b0 :: rest').drop (pre.length + w)),
            b ∉ lit "latest" := by
          intro w
          obtain ⟨b', hb', hbad⟩ := AppendRune_bad
            (unicode.ToLower caseTable (utf8.DecodeRuneInString (b0 :: rest')).1)
            (by rw [unicode_ToLower_non_ascii caseTable _ hc]; exact hT _ hc)
          exact ⟨b', List.mem_append_left _ (List.mem_append_right _ hb'), hbad⟩
        split_ifs at h
        · exact hcont i r w h
        · exact hcont i r w h
        · simp only [Option.some.injEq, Prod.mk.injEq] at h
          obtain ⟨rfl, rfl, rfl⟩ := h
          exact hstop _
        · simp only [Option.some.injEq, Prod.mk.injEq] at h
          obtain ⟨rfl, rfl, rfl⟩ := h
          exact hstop _

/-- A string with a byte above 0x7F is mapped by `strings.Map(unicode.ToLower, s)` to a
string that holds a byte that does not occur in "latest". -/
theorem Map_ToLower_bad (caseTable : Nat → Nat)
    (hT : ∀ r, 0x7F < r → caseTable r ∉ lit "latest") (s : GoString)
    (hs : ∃ b ∈ s, 0x80 ≤ b) :
    ∃ b ∈ strings.Map (unicode.ToLower caseTable) s, b ∉ lit "latest" := by
  unfold strings.Map
  cases h : strings.Map.firstChange (unicode.ToLower caseTable) s.length 0 s with
  | none =>
    obtain ⟨b, hb, hb128⟩ := hs
    exact ⟨b, hb, not_mem_latest_of_ge b hb128⟩
  | some found =>
    obtain ⟨i, r, w⟩ := found
    have := Map_bad_of_rest caseTable hT s.length [] s le_rfl hs i r w h
    simpa using this

/-- The ASCII lower-casing of a byte gives a letter of "latest" only from that letter or
from its upper-case letter. -/
theorem lower_byte_eq_iff (c l : Nat) (hl : l ∈ lit "latest") :
    (if 'A'.toNat ≤ c ∧ c ≤ 'Z'.toNat then c + ('a'.toNat - 'A'.toNat) else c) = l ↔
      (c = l ∨ c = l - ('a'.toNat - 'A'.toNat)) := by
  have hA : 'A'.toNat = 65 := rfl
  have hZ : 'Z'.toNat = 90 := rfl
  have ha : 'a'.toNat = 97 := rfl
  rw [lit_latest] at hl
  simp only [List.mem_cons, List.mem_singleton, List.not_mem_nil, or_false] at hl
  rw [hA, hZ, ha]
  split_ifs <;> omega

/-- A string that agrees with "latest" up to the case of its letters is ASCII. -/
theorem spelling_ascii (t : GoString)
    (hcase : List.Forall₂ (fun c l => c = l ∨ c = l - ('a'.toNat - 'A'.toNat)) t
      (lit "latest")) :
    ∀ b ∈ t, b < 0x80 := by
  have ha : 'a'.toNat = 97 := rfl
  have hA : 'A'.toNat = 65 := rfl
  rw [lit_latest] at hcase
  simp only [List.forall₂_cons_right_iff, List.forall₂_nil_right_iff] at hcase
  obtain ⟨c0, r0, h0, ⟨c1, r1, h1, ⟨c2, r2, h2, ⟨c3, r3, h3, ⟨c4, r4, h4,
    ⟨c5, r5, h5, rfl, rfl⟩, rfl⟩, rfl⟩, rfl⟩, rfl⟩, rfl⟩ := hcase
  intro b hb
  simp only [List.mem_cons, List.mem_singleton, List.not_mem_nil, or_false] at hb
  rw [ha, hA] at h0 h1 h2 h3 h4 h5
  omega

/-- On an ASCII string, `strings.ToLower` gives "latest" exactly when the string agrees
with "latest" up to the case of its letters. -/
theorem map_lower_eq_latest_iff (t : GoString) :
    t.map (fun c => if 'A'.toNat ≤ c ∧ c ≤ 'Z'.toNat then c + ('a'.toNat - 'A'.toNat) else c)
        = lit "latest" ↔
      List.Forall₂ (fun c l => c = l ∨ c = l - ('a'.toNat - 'A'.toNat)) t (lit "latest") := by
  have key : ∀ (t l : GoString), (∀ x ∈ l, x ∈ lit "latest") →
      (t.map (fun c => if 'A'.toNat ≤ c ∧ c ≤ 'Z'.toNat then c + ('a'.toNat - 'A'.toNat) else c)
        = l ↔
      List.Forall₂ (fun c l => c = l ∨ c = l - ('a'.toNat - 'A'.toNat)) t l) := by
    intro t
    induction t with
    | nil =>
      intro l _
      cases l <;> simp
    | cons c cs ih =>
      intro l hl
      cases l with
      | nil => simp
      | cons x xs =>
        have hx := hl x (List.mem_cons_self _ _)
        have hxs : ∀ y ∈ xs, y ∈ lit "latest" := fun y hy => hl y (List.mem_cons_of_mem _ hy)
        rw [List.map_cons, List.cons.injEq, List.forall₂_cons, lower_byte_eq_iff c x hx,
          ih xs hxs]
  exact key t (lit "latest") (fun _ h => h)

/-- Provided the case table maps no rune above `MaxASCII` to a letter of "latest",
`strings.ToLower` gives "latest" exactly on the strings that agree with "latest" up to
the case of their letters. -/
theorem ToLower_eq_latest_iff (caseTable : Nat → Nat)
    (hT : ∀ r, 0x7F < r → caseTable r ∉ lit "latest") (t : GoString) :
    strings.ToLower caseTable t = lit "latest" ↔
      List.Forall₂ (fun c l => c = l ∨ c = l - ('a'.toNat - 'A'.toNat)) t (lit "latest") := by
  by_cases hs : ∀ b ∈ t, b < 0x80
  · rw [ToLower_ascii caseTable t hs]
    exact map_lower_eq_latest_iff t
  · constructor
    · intro h
      exfalso
      have hex : ∃ b ∈ t, 0x80 ≤ b := by
        by_contra hno
        exact hs (fun b hb => by
          by_contra hlt
          exact hno ⟨b, hb, by omega⟩)
      obtain ⟨b, hb, hbad⟩ := Map_ToLower_bad caseTable hT t hex
      rw [ToLower_non_ascii caseTable t hs] at h
      rw [h] at hb
      exact hbad hb
    · intro h
      exact absurd (spelling_ascii t h) hs

/-! ## C13 -/

/-- C13: provided the case table maps no rune above `MaxASCII` to one of `l`, `a`, `t`,
`e`, `s`, for a tag list with the sole element `t`, `validate` returns false exactly when
`t` is one of the ASCII-case spellings of "latest", that is when `t` agrees with "latest"
position by position up to replacing a letter by its upper-case letter; every other
string passes, among them " latest", "latest ", the empty tag and "lateſt" with
U+017F. -/
theorem C13_single_tag_rejected_iff_spelling (caseTable : Nat → Nat)
    (p : HasUniqueTagCheck σ Ctx Err)
    (hT : ∀ r, unicode.MaxASCII < r →
      caseTable r ∉ ['l'.toNat, 'a'.toNat, 't'.toNat, 'e'.toNat, 's'.toNat]) :
    (∀ t : GoString, p.validate caseTable [t] = .ok (false, none) ↔
      List.Forall₂ (fun c l => c = l ∨ c = l - ('a'.toNat - 'A'.toNat)) t (lit "latest"))
    ∧ (∀ t : GoString,
      ¬ List.Forall₂ (fun c l => c = l ∨ c = l - ('a'.toNat - 'A'.toNat)) t (lit "latest") →
      p.validate caseTable [t] = .ok (true, none))
    ∧ p.validate caseTable [lit " latest"] = .ok (true, none)
    ∧ p.validate caseTable [lit "latest "] = .ok (true, none)
    ∧ p.validate caseTable [lit ""] = .ok (true, none)
    ∧ p.validate caseTable [lit "lateſt"] = .ok (true, none)
    ∧ lit "lateſt" = [108, 97, 116, 101, 0xC5, 0xBF, 116] := by
  have hT' : ∀ r, 0x7F < r → caseTable r ∉ lit "latest" := by
    intro r hr hmem
    refine hT r hr ?_
    rw [lit_latest] at hmem
    simp only [List.mem_cons, List.mem_singleton, List.not_mem_nil, or_false] at hmem
    have hl : 'l'.toNat = 108 := rfl
    have ha : 'a'.toNat = 97 := rfl
    have ht : 't'.toNat = 116 := rfl
    have he : 'e'.toNat = 101 := rfl
    have hs : 's'.toNat = 115 := rfl
    rw [hl, ha, ht, he, hs]
    simp only [List.mem_cons, List.mem_singleton, List.not_mem_nil, or_false]
    omega
  have hiff := ToLower_eq_latest_iff caseTable hT'
  have hpass : ∀ t : GoString,
      ¬ List.Forall₂ (fun c l => c = l ∨ c = l - ('a'.toNat - 'A'.toNat)) t (lit "latest") →
      p.validate caseTable [t] = .ok (true, none) := by
    intro t hno
    have hne : strings.ToLower caseTable t ≠ lit "latest" := fun h => hno ((hiff t).mp h)
    rw [validate_eq]
    simp [hne]
  refine ⟨?_, hpass, hpass _ (by decide), hpass _ (by decide), hpass _ (by decide),
    hpass _ (by decide), by decide⟩
  intro t
  rw [validate_eq, ← hiff t]
  by_cases h : strings.ToLower caseTable t = lit "latest" <;> simp [h]

/-- C13 at a case table that holds the two runes above `MaxASCII` with an ASCII lower
case, U+0130 and U+212A: the tag "LATEſT" passes and the tag "LATEST" is rejected. -/
theorem C13_single_tag_rejected_iff_spelling_witness :
    (∀ r, unicode.MaxASCII < r →
      sampleCaseTable r ∉ ['l'.toNat, 'a'.toNat, 't'.toNat, 'e'.toNat, 's'.toNat])
    ∧ (cannedCheck [] none).validate sampleCaseTable [lit "LATEſT"] = .ok (true, none)
    ∧ (cannedCheck [] none).validate sampleCaseTable [lit "LATEST"] = .ok (false, none) := by
  have hT : ∀ r, unicode.MaxASCII < r →
      sampleCaseTable r ∉ ['l'.toNat, 'a'.toNat, 't'.toNat, 'e'.toNat, 's'.toNat] := by
    intro r hr
    have hl : 'l'.toNat = 108 := rfl
    have ha : 'a'.toNat = 97 := rfl
    have ht : 't'.toNat = 116 := rfl
    have he : 'e'.toNat = 101 := rfl
    have hs : 's'.toNat = 115 := rfl
    have hk : 'k'.toNat = 107 := rfl
    have hi : 'i'.toNat = 105 := rfl
    simp only [unicode.MaxASCII] at hr
    rw [hl, ha, ht, he, hs]
    simp only [sampleCaseTable, hk, hi, List.mem_cons, List.mem_singleton, List.not_mem_nil,
      or_false]
    split_ifs <;> omega
  exact ⟨hT,
    (C13_single_tag_rejected_iff_spelling sampleCaseTable (cannedCheck [] none) hT).2.1
      (lit "LATEſT") (by decide),
    ((C13_single_tag_rejected_iff_spelling sampleCaseTable (cannedCheck [] none) hT).1
      (lit "LATEST")).mpr (by decide)⟩

/-! ## C14 -/

/-- C14: acceptance is monotone under adding tags: if `validate(ts)` is true then
`validate(ts ++ extra)` is true, for every list `extra`; for every non-empty `ts` and
every tag `t`, `validate(ts ++ [t])` is true; and a rejected list has length 0 or 1. -/
theorem C14_validate_monotone (caseTable : Nat → Nat) (p : HasUniqueTagCheck σ Ctx Err)
    (ts : List GoString) :
    (∀ extra : List GoString, p.validate caseTable ts = .ok (true, none) →
      p.validate caseTable (ts ++ extra) = .ok (true, none))
    ∧ (∀ t : GoString, ts ≠ [] → p.validate caseTable (ts ++ [t]) = .ok (true, none))
    ∧ (p.validate caseTable ts = .ok (false, none) → ts.length ≤ 1) := by
  refine ⟨?_, ?_, ?_⟩
  · intro extra h
    match ts, extra, h with
    | [], _, h =>
      rw [validate_eq] at h
      simp at h
    | [t], [], h => simpa using h
    | [t], _ :: _, _ => rw [validate_eq]; rfl
    | _ :: _ :: _, _, _ => rw [validate_eq]; rfl
  · intro t hne
    match ts, hne with
    | [_], _ => rw [validate_eq]; rfl
    | _ :: _ :: _, _ => rw [validate_eq]; rfl
  · intro h
    match ts, h with
    | [], _ => simp
    | [_], _ => simp
    | _ :: _ :: _, h =>
      rw [validate_eq] at h
      simp at h

/-- C14 at the accepted list ["v1.0"] extended by ["latest", "latest"], and at the
rejected list ["latest"] extended by the tag "latest". -/
theorem C14_validate_monotone_witness :
    (cannedCheck [] none).validate emptyCaseTable [lit "v1.0"] = .ok (true, none)
    ∧ (cannedCheck [] none).validate emptyCaseTable
        ([lit "v1.0"] ++ [lit "latest", lit "latest"]) = .ok (true, none)
    ∧ [lit "latest"] ≠ []
    ∧ (cannedCheck [] none).validate emptyCaseTable ([lit "latest"] ++ [lit "latest"])
        = .ok (true, none) :=
  ⟨rfl,
    (C14_validate_monotone emptyCaseTable (cannedCheck [] none) [lit "v1.0"]).1
      [lit "latest", lit "latest"] rfl,
    by decide,
    (C14_validate_monotone emptyCaseTable (cannedCheck [] none) [lit "latest"]).2.1
      (lit "latest") (by decide)⟩

end HasUniqueTag
